import Mathlib

/-!
Verification of the ICO container assembler `assembleIco` from
`src/pages/developers/FaviconGeneratorPage.jsx`.

The JavaScript routine receives an array of image objects
`{ width, height, data : Uint8Array }`, allocates an `ArrayBuffer` of
`6 + count*16 + Σ data.length` bytes and fills it through a `DataView`
with a monotonically advancing write cursor `pos`:

* a 6-byte header (`setUint16` little-endian: reserved 0, type 1, count),
* one 16-byte directory record per image, tracking a running `offset`
  that starts right after the directory,
* the concatenated image payloads.

The shallow embedding below models the buffer as a `List Nat` of byte
values, `DataView.setUintN` as little-endian stores that truncate the
value exactly as JavaScript does (`v mod 2^N`, written out per byte as
`v / 256^k % 256`), and each `forEach` mutation loop as a `List.foldl`
over an explicit `(buffer, cursor, …)` state.  `Uint8Array` elements are
`Fin 256`, the invariant the JavaScript typed array guarantees.
-/

namespace FaviconGenerator

/-- An element of the `images` array handed to `assembleIco`: the spec's
`ImageEntry` with `width`, `height` and the opaque PNG payload `data`
(a `Uint8Array`, hence bytes in `Fin 256`). -/
structure ImageEntry where
  width : Nat
  height : Nat
  data : List (Fin 256)
deriving DecidableEq

/-- `DataView.setUint8 (pos, v)`: store `v mod 256` at index `pos`.
`List.set` ignores out-of-range indices, as a successful in-bounds
`DataView` store never is. -/
def setUint8 (buf : List Nat) (pos v : Nat) : List Nat :=
  buf.set pos (v % 256)

/-- `DataView.setUint16 (pos, v, littleEndian)`: store `v mod 2^16`
little-endian at `pos`. -/
def setUint16 (buf : List Nat) (pos v : Nat) : List Nat :=
  (buf.set pos (v % 256)).set (pos + 1) (v / 256 % 256)

/-- `DataView.setUint32 (pos, v, littleEndian)`: store `v mod 2^32`
little-endian at `pos`. -/
def setUint32 (buf : List Nat) (pos v : Nat) : List Nat :=
  (((buf.set pos (v % 256)).set (pos + 1) (v / 256 % 256)).set
    (pos + 2) (v / 65536 % 256)).set (pos + 3) (v / 16777216 % 256)

/-- Body of the first `images.forEach` of `assembleIco`: write one
16-byte directory record at the cursor `pos` and advance the running
data `offset` by the payload length.  State is `(view, pos, offset)`. -/
def dirStep (st : List Nat × Nat × Nat) (img : ImageEntry) : List Nat × Nat × Nat :=
  let (view, pos, offset) := st
  let width := if img.width ≥ 256 then 0 else img.width
  let height := if img.height ≥ 256 then 0 else img.height
  let view := setUint8 view pos width
  let view := setUint8 view (pos + 1) height
  let view := setUint8 view (pos + 2) 0
  let view := setUint8 view (pos + 3) 0
  let view := setUint16 view (pos + 4) 1
  let view := setUint16 view (pos + 6) 32
  let view := setUint32 view (pos + 8) img.data.length
  let view := setUint32 view (pos + 12) offset
  (view, pos + 16, offset + img.data.length)

/-- Body of the innermost write loop of the second `images.forEach`:
`view.setUint8(pos++, img.data[i])`. -/
def dataStep (st : List Nat × Nat) (b : Fin 256) : List Nat × Nat :=
  let (view, pos) := st
  (setUint8 view pos b.val, pos + 1)

/-- The whole of `assembleIco`, kept together with its final write
cursor (the value of `pos` after the last loop): header, directory
records, then the concatenated payload bytes, all written into a buffer
of `totalSize` zero bytes. -/
def assembleIcoRun (images : List ImageEntry) : List Nat × Nat :=
  let count := images.length
  let offset := 6 + count * 16
  let totalSize := images.foldl (fun t img => t + img.data.length) offset
  let buffer := List.replicate totalSize 0
  let pos := 0
  let view := setUint16 buffer pos 0
  let pos := pos + 2
  let view := setUint16 view pos 1
  let pos := pos + 2
  let view := setUint16 view pos count
  let pos := pos + 2
  let st := images.foldl dirStep (view, pos, offset)
  let st2 := images.foldl (fun st img => img.data.foldl dataStep st) (st.1, st.2.1)
  st2

/-- `assembleIco(images)`: the returned buffer. -/
def assembleIco (images : List ImageEntry) : List Nat :=
  (assembleIcoRun images).1

/-! ### Little-endian reads (how a consumer decodes the fields) -/

/-- Read one byte (0 when out of range, which never happens for the
positions used below). -/
def getUint8 (buf : List Nat) (pos : Nat) : Nat :=
  buf.getD pos 0

/-- Little-endian 16-bit read, as `DataView.getUint16 (pos, true)`. -/
def getUint16 (buf : List Nat) (pos : Nat) : Nat :=
  buf.getD pos 0 + 256 * buf.getD (pos + 1) 0

/-- Little-endian 32-bit read, as `DataView.getUint32 (pos, true)`. -/
def getUint32 (buf : List Nat) (pos : Nat) : Nat :=
  buf.getD pos 0 + 256 * buf.getD (pos + 1) 0 + 65536 * buf.getD (pos + 2) 0
    + 16777216 * buf.getD (pos + 3) 0

/-! ### Compositional description of the output

The stateful routine is proved equal to the concatenation
`headerBytes ++ dirBytes ++ dataBytes` below; every claim is then read
off this closed form. -/

/-- Sum of the payload lengths of a list of entries. -/
def sumLen : List ImageEntry → Nat
  | [] => 0
  | img :: rest => img.data.length + sumLen rest

/-- The 6-byte header: reserved 0, type 1, count (little-endian,
truncated to 16 bits exactly as `setUint16` truncates). -/
def headerBytes (count : Nat) : List Nat :=
  [0, 0, 1, 0, count % 256, count / 256 % 256]

/-- The 16-byte directory record of one entry, given the data offset
stored in it: width and height bytes (0 when the dimension is ≥ 256),
color count 0, reserved 0, planes 1, bit depth 32, payload size and
offset as little-endian 32-bit fields. -/
def dirEntryBytes (img : ImageEntry) (offset : Nat) : List Nat :=
  [(if img.width ≥ 256 then 0 else img.width) % 256,
   (if img.height ≥ 256 then 0 else img.height) % 256,
   0, 0, 1, 0, 32, 0,
   img.data.length % 256, img.data.length / 256 % 256,
   img.data.length / 65536 % 256, img.data.length / 16777216 % 256,
   offset % 256, offset / 256 % 256, offset / 65536 % 256,
   offset / 16777216 % 256]

/-- All directory records, threading the running data offset. -/
def dirBytes : List ImageEntry → Nat → List Nat
  | [], _ => []
  | img :: rest, offset =>
      dirEntryBytes img offset ++ dirBytes rest (offset + img.data.length)

/-- The data section: every payload, in input order, no padding. -/
def dataBytes : List ImageEntry → List Nat
  | [] => []
  | img :: rest => img.data.map Fin.val ++ dataBytes rest

/-- Closed form of the assembled file. -/
def icoBytes (images : List ImageEntry) : List Nat :=
  headerBytes images.length
    ++ dirBytes images (6 + 16 * images.length)
    ++ dataBytes images

/-- Total size of the assembled file. -/
def icoTotalSize (images : List ImageEntry) : Nat :=
  6 + 16 * images.length + sumLen images

/-- The data offset stored in directory record `i`: directly after the
header and the full directory, plus the payloads of all earlier
entries. -/
def icoOffset (images : List ImageEntry) (i : Nat) : Nat :=
  6 + 16 * images.length + sumLen (images.take i)

/-- Sequential byte store: `writeBytes buf pos bs` stores the bytes
`bs` at consecutive indices starting at `pos`.  Every `setUintN` call
and every loop of `assembleIco` is an instance of it. -/
def writeBytes : List Nat → Nat → List Nat → List Nat
  | buf, _, [] => buf
  | buf, pos, b :: bs => writeBytes (buf.set pos b) (pos + 1) bs

/-- A throwaway entry used as the `List.getD` default when indexing the
input list at a position already known to be in range. -/
def defaultEntry : ImageEntry :=
  ⟨0, 0, []⟩

/-! ### Basic algebra of `sumLen` and `writeBytes` -/

theorem sumLen_append (a b : List ImageEntry) :
    sumLen (a ++ b) = sumLen a + sumLen b := by
  induction a with
  | nil => simp [sumLen]
  | cons img rest ih => simp [sumLen, ih, Nat.add_assoc]

theorem foldl_totalSize (l : List ImageEntry) :
    ∀ a : Nat, l.foldl (fun t img => t + img.data.length) a = a + sumLen l := by
  induction l with
  | nil => intro a; simp [sumLen]
  | cons img rest ih => intro a; simp [List.foldl, sumLen, ih, Nat.add_assoc]

theorem writeBytes_append (as : List Nat) :
    ∀ (bs buf : List Nat) (pos : Nat),
      writeBytes buf pos (as ++ bs) = writeBytes (writeBytes buf pos as) (pos + as.length) bs := by
  induction as with
  | nil => intro bs buf pos; simp [writeBytes]
  | cons a as ih =>
      intro bs buf pos
      show writeBytes (buf.set pos a) (pos + 1) (as ++ bs)
          = writeBytes (writeBytes (buf.set pos a) (pos + 1) as) (pos + (as.length + 1)) bs
      rw [ih]
      have h : pos + 1 + as.length = pos + (as.length + 1) := by omega
      rw [h]

theorem writeBytes_length (bs : List Nat) :
    ∀ (buf : List Nat) (pos : Nat), (writeBytes buf pos bs).length = buf.length := by
  induction bs with
  | nil => intro buf pos; rfl
  | cons b bs ih => intro buf pos; simp [writeBytes, ih]

theorem set_length_append (pre : List Nat) :
    ∀ (c b : Nat) (rest : List Nat), (pre ++ c :: rest).set pre.length b = pre ++ b :: rest := by
  induction pre with
  | nil => intro c b rest; rfl
  | cons p pre ih => intro c b rest; simp [List.set, ih]

theorem writeBytes_fill (bs : List Nat) :
    ∀ (pre rest : List Nat), rest.length = bs.length →
      writeBytes (pre ++ rest) pre.length bs = pre ++ bs := by
  induction bs with
  | nil =>
      intro pre rest h
      have : rest = [] := List.length_eq_zero.mp h
      simp [this, writeBytes]
  | cons b bs ih =>
      intro pre rest h
      match rest with
      | [] => simp at h
      | c :: rest' =>
          simp only [writeBytes, set_length_append]
          have h' : rest'.length = bs.length := by
            simpa using h
          have := ih (pre ++ [b]) rest' h'
          simpa [List.append_assoc] using this

theorem writeBytes_fill_all (bs rest : List Nat) (h : rest.length = bs.length) :
    writeBytes rest 0 bs = bs := by
  simpa using writeBytes_fill bs [] rest h

/-! ### The three loops of `assembleIco` as `writeBytes` instances -/

theorem headerWrites_eq (buf : List Nat) (c : Nat) :
    setUint16 (setUint16 (setUint16 buf 0 0) 2 1) 4 c = writeBytes buf 0 (headerBytes c) := by
  simp [setUint16, writeBytes, headerBytes]

theorem dirEntryBytes_length (img : ImageEntry) (off : Nat) :
    (dirEntryBytes img off).length = 16 := by
  simp [dirEntryBytes]

theorem dirStep_eq (buf : List Nat) (pos off : Nat) (img : ImageEntry) :
    dirStep (buf, pos, off) img =
      (writeBytes buf pos (dirEntryBytes img off), pos + 16, off + img.data.length) := by
  simp [dirStep, dirEntryBytes, writeBytes, setUint8, setUint16, setUint32, Nat.add_assoc]

theorem foldl_dirStep (images : List ImageEntry) :
    ∀ (buf : List Nat) (pos off : Nat),
      images.foldl dirStep (buf, pos, off) =
        (writeBytes buf pos (dirBytes images off), pos + 16 * images.length,
          off + sumLen images) := by
  induction images with
  | nil => intro buf pos off; simp [dirBytes, sumLen, writeBytes]
  | cons img rest ih =>
      intro buf pos off
      simp only [List.foldl_cons, dirStep_eq, ih, dirBytes, sumLen]
      rw [writeBytes_append, dirEntryBytes_length]
      refine congrArg₂ Prod.mk rfl (congrArg₂ Prod.mk ?_ ?_)
      · simp [List.length_cons]; omega
      · omega

theorem foldl_dataStep (data : List (Fin 256)) :
    ∀ (buf : List Nat) (pos : Nat),
      data.foldl dataStep (buf, pos) =
        (writeBytes buf pos (data.map Fin.val), pos + data.length) := by
  induction data with
  | nil => intro buf pos; simp [writeBytes]
  | cons b bs ih =>
      intro buf pos
      have hb : b.val % 256 = b.val := Nat.mod_eq_of_lt b.isLt
      simp [List.foldl_cons, dataStep, setUint8, ih, writeBytes, hb, Nat.add_assoc]
      omega

theorem foldl_dataLoop (images : List ImageEntry) :
    ∀ (buf : List Nat) (pos : Nat),
      images.foldl (fun st img => img.data.foldl dataStep st) (buf, pos) =
        (writeBytes buf pos (dataBytes images), pos + sumLen images) := by
  induction images with
  | nil => intro buf pos; simp [dataBytes, sumLen, writeBytes]
  | cons img rest ih =>
      intro buf pos
      simp only [List.foldl_cons, foldl_dataStep, ih, dataBytes, sumLen]
      rw [writeBytes_append, List.length_map]
      refine congrArg₂ Prod.mk rfl ?_
      omega

/-! ### Lengths of the pieces and the main refinement theorem -/

theorem headerBytes_length (c : Nat) : (headerBytes c).length = 6 := by
  simp [headerBytes]

theorem dirBytes_length (images : List ImageEntry) :
    ∀ off : Nat, (dirBytes images off).length = 16 * images.length := by
  induction images with
  | nil => intro off; simp [dirBytes]
  | cons img rest ih =>
      intro off
      simp [dirBytes, dirEntryBytes_length, ih]
      omega

theorem dataBytes_length (images : List ImageEntry) :
    (dataBytes images).length = sumLen images := by
  induction images with
  | nil => simp [dataBytes, sumLen]
  | cons img rest ih => simp [dataBytes, sumLen, ih]

theorem icoBytes_length (images : List ImageEntry) :
    (icoBytes images).length = icoTotalSize images := by
  simp [icoBytes, icoTotalSize, headerBytes_length, dirBytes_length, dataBytes_length,
    Nat.add_assoc]

/-- Refinement: the stateful routine produces exactly the closed-form
byte list, and its write cursor ends exactly at the end of the
buffer. -/
theorem assembleIcoRun_eq (images : List ImageEntry) :
    assembleIcoRun images = (icoBytes images, icoTotalSize images) := by
  unfold assembleIcoRun
  simp only [foldl_totalSize, Nat.zero_add, Nat.reduceAdd, headerWrites_eq, foldl_dirStep,
    foldl_dataLoop]
  set R := List.replicate (6 + images.length * 16 + sumLen images) (0 : Nat) with hR
  set H := headerBytes images.length with hH
  set D := dirBytes images (6 + images.length * 16) with hD
  have h1 : writeBytes (writeBytes R 0 H) 6 D = writeBytes R 0 (H ++ D) := by
    rw [writeBytes_append, hH, headerBytes_length]
  have hl : (0 : Nat) + (H ++ D).length = 6 + 16 * images.length := by
    simp [hH, hD, headerBytes_length, dirBytes_length]
  have h2 := writeBytes_append (H ++ D) (dataBytes images) R 0
  rw [hl] at h2
  have h3 : writeBytes R 0 (H ++ D ++ dataBytes images) = H ++ D ++ dataBytes images := by
    apply writeBytes_fill_all
    simp [hR, hH, hD, headerBytes_length, dirBytes_length, dataBytes_length]
    omega
  rw [h1, ← h2, h3]
  rw [Prod.mk.injEq]
  constructor
  · rw [icoBytes, hH, hD, Nat.mul_comm images.length 16]
  · rw [icoTotalSize]

/-- Refinement, buffer part only. -/
theorem assembleIco_eq (images : List ImageEntry) :
    assembleIco images = icoBytes images := by
  rw [assembleIco, assembleIcoRun_eq]

/-! ### Reading individual bytes of the closed form -/

theorem getD_drop (l : List Nat) (a k d : Nat) :
    (l.drop a).getD k d = l.getD (a + k) d := by
  simp [List.getD_eq_getElem?_getD, List.getElem?_drop]

theorem getD_append_left (l l' : List Nat) (n d : Nat) (h : n < l.length) :
    (l ++ l').getD n d = l.getD n d := by
  simp [List.getD_eq_getElem?_getD, List.getElem?_append_left h]

theorem sumLen_singleton (img : ImageEntry) : sumLen [img] = img.data.length := by
  simp [sumLen]

theorem sumLen_take_le (l : List ImageEntry) (i : Nat) :
    sumLen (l.take i) ≤ sumLen l := by
  conv_rhs => rw [← List.take_append_drop i l]
  rw [sumLen_append]
  omega

theorem sumLen_take_mono (l : List ImageEntry) (a b : Nat) (h : a ≤ b) :
    sumLen (l.take a) ≤ sumLen (l.take b) := by
  have : l.take b = l.take a ++ (l.drop a).take (b - a) := by
    rw [← List.take_add]
    congr 1
    omega
  rw [this, sumLen_append]
  omega

theorem sumLen_take_succ (l : List ImageEntry) :
    ∀ i : Nat, i < l.length →
      sumLen (l.take (i + 1)) =
        sumLen (l.take i) + (l.getD i defaultEntry).data.length := by
  induction l with
  | nil => intro i h; simp at h
  | cons img rest ih =>
      intro i h
      match i with
      | 0 => simp [sumLen]
      | j + 1 =>
          have hj : j < rest.length := by simpa using h
          have hrec := ih j hj
          simp [sumLen] at hrec ⊢
          omega

theorem getD_data_len_le (l : List ImageEntry) :
    ∀ i : Nat, i < l.length → (l.getD i defaultEntry).data.length ≤ sumLen l := by
  induction l with
  | nil => intro i h; simp at h
  | cons img rest ih =>
      intro i h
      match i with
      | 0 => simp [sumLen]
      | j + 1 =>
          have hj : j < rest.length := by simpa using h
          have hrec := ih j hj
          simp [sumLen] at hrec ⊢
          omega

/-! ### Locating directory record `i` and payload `i` in the output -/

theorem dirBytes_drop (images : List ImageEntry) :
    ∀ (i off : Nat), i < images.length →
      (dirBytes images off).drop (16 * i) =
        dirEntryBytes (images.getD i defaultEntry) (off + sumLen (images.take i))
          ++ dirBytes (images.drop (i + 1)) (off + sumLen (images.take (i + 1))) := by
  induction images with
  | nil => intro i off h; simp at h
  | cons img rest ih =>
      intro i off h
      match i with
      | 0 => simp [dirBytes, sumLen]
      | j + 1 =>
          have hj : j < rest.length := by simpa using h
          have h16 : 16 * (j + 1) = 16 + 16 * j := by omega
          show (dirEntryBytes img off ++ dirBytes rest (off + img.data.length)).drop
              (16 * (j + 1)) = _
          rw [h16, ← List.drop_drop, List.drop_left' (dirEntryBytes_length img off),
            ih j (off + img.data.length) hj]
          simp [sumLen, Nat.add_assoc]

theorem icoBytes_drop_dir (images : List ImageEntry) (i : Nat) (hi : i < images.length) :
    (icoBytes images).drop (6 + 16 * i) =
      dirEntryBytes (images.getD i defaultEntry) (icoOffset images i)
        ++ (dirBytes (images.drop (i + 1)) (icoOffset images (i + 1))
          ++ dataBytes images) := by
  rw [icoBytes, ← List.drop_drop]
  have hd6 : ((headerBytes images.length
      ++ dirBytes images (6 + 16 * images.length)) ++ dataBytes images).drop 6 =
      dirBytes images (6 + 16 * images.length) ++ dataBytes images := by
    rw [List.drop_append_of_le_length (by simp [headerBytes_length])]
    rw [List.drop_left' (headerBytes_length images.length)]
  rw [hd6]
  rw [List.drop_append_of_le_length
    (by rw [dirBytes_length]; exact Nat.mul_le_mul_left 16 (Nat.le_of_lt hi))]
  rw [dirBytes_drop images i (6 + 16 * images.length) hi]
  rw [icoOffset, icoOffset, List.append_assoc]

theorem icoBytes_dir_getD (images : List ImageEntry) (i k : Nat) (hi : i < images.length)
    (hk : k < 16) :
    (icoBytes images).getD (6 + 16 * i + k) 0 =
      (dirEntryBytes (images.getD i defaultEntry) (icoOffset images i)).getD k 0 := by
  rw [← getD_drop _ (6 + 16 * i) k 0, icoBytes_drop_dir images i hi]
  exact getD_append_left _ _ _ _ (by rw [dirEntryBytes_length]; exact hk)

theorem icoBytes_header_getD (images : List ImageEntry) (k : Nat) (hk : k < 6) :
    (icoBytes images).getD k 0 = (headerBytes images.length).getD k 0 := by
  rw [icoBytes]
  rw [getD_append_left _ _ _ _
    (by simp [headerBytes_length, dirBytes_length]; omega)]
  exact getD_append_left _ _ _ _ (by rw [headerBytes_length]; exact hk)

theorem icoBytes_drop_data (images : List ImageEntry) :
    (icoBytes images).drop (6 + 16 * images.length) = dataBytes images := by
  rw [icoBytes]
  apply List.drop_left'
  simp [headerBytes_length, dirBytes_length]

theorem dataBytes_slice (images : List ImageEntry) :
    ∀ i : Nat, i < images.length →
      ((dataBytes images).drop (sumLen (images.take i))).take
          (images.getD i defaultEntry).data.length =
        (images.getD i defaultEntry).data.map Fin.val := by
  induction images with
  | nil => intro i h; simp at h
  | cons img rest ih =>
      intro i h
      match i with
      | 0 =>
          simp only [List.take_zero, sumLen, List.drop_zero, List.getD_cons_zero, dataBytes]
          exact List.take_left' (by simp)
      | j + 1 =>
          have hj : j < rest.length := by simpa using h
          have hrec := ih j hj
          simp only [dataBytes, List.take_succ_cons, sumLen, List.getD_cons_succ]
          rw [← List.drop_drop,
            List.drop_left' (by simp : (List.map Fin.val img.data).length = img.data.length)]
          exact hrec

theorem assembleIco_payload_slice (images : List ImageEntry) (i : Nat)
    (hi : i < images.length) :
    ((assembleIco images).drop (icoOffset images i)).take
        (images.getD i defaultEntry).data.length =
      (images.getD i defaultEntry).data.map Fin.val := by
  rw [assembleIco_eq, icoOffset, ← List.drop_drop, icoBytes_drop_data]
  exact dataBytes_slice images i hi

/-! ### The individual fields of the assembled file -/

theorem assembleIco_length_closed (images : List ImageEntry) :
    (assembleIco images).length = 6 + 16 * images.length + sumLen images := by
  rw [assembleIco_eq, icoBytes_length, icoTotalSize]

theorem assembleIco_reserved_field (images : List ImageEntry) :
    getUint16 (assembleIco images) 0 = 0 := by
  rw [getUint16, assembleIco_eq, icoBytes_header_getD images 0 (by omega),
    show (0 : Nat) + 1 = 1 from rfl, icoBytes_header_getD images 1 (by omega)]
  simp [headerBytes]

theorem assembleIco_type_field (images : List ImageEntry) :
    getUint16 (assembleIco images) 2 = 1 := by
  rw [getUint16, assembleIco_eq, icoBytes_header_getD images 2 (by omega),
    show (2 : Nat) + 1 = 3 from rfl, icoBytes_header_getD images 3 (by omega)]
  simp [headerBytes]

theorem assembleIco_count_field (images : List ImageEntry) :
    getUint16 (assembleIco images) 4 = images.length % 65536 := by
  rw [getUint16, assembleIco_eq, icoBytes_header_getD images 4 (by omega),
    show (4 : Nat) + 1 = 5 from rfl, icoBytes_header_getD images 5 (by omega)]
  simp [headerBytes]
  omega

theorem assembleIco_width_byte (images : List ImageEntry) (i : Nat) (hi : i < images.length) :
    getUint8 (assembleIco images) (6 + 16 * i) =
      if (images.getD i defaultEntry).width ≥ 256 then 0
      else (images.getD i defaultEntry).width := by
  rw [getUint8, assembleIco_eq, show 6 + 16 * i = 6 + 16 * i + 0 from rfl,
    icoBytes_dir_getD images i 0 hi (by omega)]
  simp only [dirEntryBytes, List.getD_cons_zero]
  split_ifs with hw
  · rfl
  · exact Nat.mod_eq_of_lt (by omega)

theorem assembleIco_height_byte (images : List ImageEntry) (i : Nat) (hi : i < images.length) :
    getUint8 (assembleIco images) (6 + 16 * i + 1) =
      if (images.getD i defaultEntry).height ≥ 256 then 0
      else (images.getD i defaultEntry).height := by
  rw [getUint8, assembleIco_eq, icoBytes_dir_getD images i 1 hi (by omega)]
  simp only [dirEntryBytes, List.getD_cons_zero, List.getD_cons_succ]
  split_ifs with hw
  · rfl
  · exact Nat.mod_eq_of_lt (by omega)

theorem assembleIco_colorcount_byte (images : List ImageEntry) (i : Nat)
    (hi : i < images.length) :
    getUint8 (assembleIco images) (6 + 16 * i + 2) = 0 := by
  rw [getUint8, assembleIco_eq, icoBytes_dir_getD images i 2 hi (by omega)]
  simp [dirEntryBytes]

theorem assembleIco_reserved_byte (images : List ImageEntry) (i : Nat)
    (hi : i < images.length) :
    getUint8 (assembleIco images) (6 + 16 * i + 3) = 0 := by
  rw [getUint8, assembleIco_eq, icoBytes_dir_getD images i 3 hi (by omega)]
  simp [dirEntryBytes]

theorem assembleIco_planes_field (images : List ImageEntry) (i : Nat)
    (hi : i < images.length) :
    getUint16 (assembleIco images) (6 + 16 * i + 4) = 1 := by
  rw [getUint16, assembleIco_eq, icoBytes_dir_getD images i 4 hi (by omega),
    show 6 + 16 * i + 4 + 1 = 6 + 16 * i + 5 from rfl,
    icoBytes_dir_getD images i 5 hi (by omega)]
  simp [dirEntryBytes]

theorem assembleIco_bpp_field (images : List ImageEntry) (i : Nat)
    (hi : i < images.length) :
    getUint16 (assembleIco images) (6 + 16 * i + 6) = 32 := by
  rw [getUint16, assembleIco_eq, icoBytes_dir_getD images i 6 hi (by omega),
    show 6 + 16 * i + 6 + 1 = 6 + 16 * i + 7 from rfl,
    icoBytes_dir_getD images i 7 hi (by omega)]
  simp [dirEntryBytes]

theorem assembleIco_size_field (images : List ImageEntry) (i : Nat)
    (hi : i < images.length) :
    getUint32 (assembleIco images) (6 + 16 * i + 8) =
      (images.getD i defaultEntry).data.length % 4294967296 := by
  rw [getUint32, assembleIco_eq, icoBytes_dir_getD images i 8 hi (by omega),
    show 6 + 16 * i + 8 + 1 = 6 + 16 * i + 9 from rfl,
    icoBytes_dir_getD images i 9 hi (by omega),
    show 6 + 16 * i + 8 + 2 = 6 + 16 * i + 10 from rfl,
    icoBytes_dir_getD images i 10 hi (by omega),
    show 6 + 16 * i + 8 + 3 = 6 + 16 * i + 11 from rfl,
    icoBytes_dir_getD images i 11 hi (by omega)]
  simp [dirEntryBytes]
  omega

theorem assembleIco_offset_field (images : List ImageEntry) (i : Nat)
    (hi : i < images.length) :
    getUint32 (assembleIco images) (6 + 16 * i + 12) =
      icoOffset images i % 4294967296 := by
  rw [getUint32, assembleIco_eq, icoBytes_dir_getD images i 12 hi (by omega),
    show 6 + 16 * i + 12 + 1 = 6 + 16 * i + 13 from rfl,
    icoBytes_dir_getD images i 13 hi (by omega),
    show 6 + 16 * i + 12 + 2 = 6 + 16 * i + 14 from rfl,
    icoBytes_dir_getD images i 14 hi (by omega),
    show 6 + 16 * i + 12 + 3 = 6 + 16 * i + 15 from rfl,
    icoBytes_dir_getD images i 15 hi (by omega)]
  simp [dirEntryBytes]
  omega

/-! ### Concrete inputs used by the witnesses -/

/-- Two square entries with distinct payloads. -/
def demoPair : List ImageEntry :=
  [⟨16, 16, [10, 20]⟩, ⟨32, 32, [30, 40, 50]⟩]

/-- Dimensions probing the `≥ 256 → 0` sentinel rule, including a
non-square entry. -/
def demoDims : List ImageEntry :=
  [⟨256, 255, []⟩, ⟨16, 300, []⟩]

/-- Four entries, the favicon generator's own use case. -/
def demo4 : List ImageEntry :=
  [⟨16, 16, [1]⟩, ⟨32, 32, []⟩, ⟨48, 48, [2, 3]⟩, ⟨64, 64, []⟩]

/-- 65536 entries: one more than the 16-bit count field can hold. -/
def manyEntries : List ImageEntry :=
  List.replicate 65536 ⟨16, 16, []⟩

/-- An entry whose payload is 2^32 bytes: one more than the 32-bit
offset/size fields can distinguish. -/
def hugeEntry : ImageEntry :=
  ⟨16, 16, List.replicate 4294967296 0⟩

/-- The huge entry followed by an ordinary one, so that record 1's data
offset 6 + 16·2 + 2^32 overflows its 32-bit field. -/
def hugePair : List ImageEntry :=
  [hugeEntry, ⟨32, 32, []⟩]

/-! ### Claims -/

/-- C1 counterexample: the claim's unconditional
"dataOffset = 6 + 16·N + Σ earlier payload lengths" fails once the
offset no longer fits the 32-bit field: with a first payload of 2^32
bytes, record 1's offset field stores (6 + 32 + 2^32) mod 2^32 = 38,
not 6 + 32 + 2^32, because `setUint32` truncates mod 2^32. -/
theorem assembleIco_offset_field_overflow :
    getUint32 (assembleIco hugePair) (6 + 16 * 1 + 12) ≠
      6 + 16 * hugePair.length + sumLen (hugePair.take 1) := by
  have hi : 1 < hugePair.length := by decide
  have hd : hugeEntry.data.length = 4294967296 := by
    show (List.replicate 4294967296 (0 : Fin 256)).length = 4294967296
    rw [List.length_replicate]
  have h1 : hugePair.take 1 = [hugeEntry] := rfl
  have hs : sumLen (hugePair.take 1) = 4294967296 := by
    rw [h1, sumLen_singleton, hd]
  have hl : hugePair.length = 2 := rfl
  have h := assembleIco_offset_field hugePair 1 hi
  rw [h, icoOffset, hs, hl]
  decide

/-- C1 (amended): for every entry list whose total size fits the
32-bit offset/size fields of the format, and every in-range index `i`,
directory record `i` stores `dataOffset = 6 + 16·N + Σ earlier payload
lengths` and `dataSize = pixelData[i].length`, slicing the output at
that offset for that length reproduces `pixelData[i]` byte-for-byte,
and no two payload regions overlap; beyond that bound the stored
fields wrap mod 2^32. -/
theorem assembleIco_directory_invariants (images : List ImageEntry) (i : Nat)
    (hi : i < images.length)
    (hfit : 6 + 16 * images.length + sumLen images < 4294967296) :
    getUint32 (assembleIco images) (6 + 16 * i + 8) =
        (images.getD i defaultEntry).data.length
      ∧ getUint32 (assembleIco images) (6 + 16 * i + 12) =
        6 + 16 * images.length + sumLen (images.take i)
      ∧ ((assembleIco images).drop
            (6 + 16 * images.length + sumLen (images.take i))).take
          (images.getD i defaultEntry).data.length =
        (images.getD i defaultEntry).data.map Fin.val
      ∧ ∀ j, j < images.length → j ≠ i →
          6 + 16 * images.length + sumLen (images.take i)
              + (images.getD i defaultEntry).data.length
            ≤ 6 + 16 * images.length + sumLen (images.take j)
          ∨ 6 + 16 * images.length + sumLen (images.take j)
              + (images.getD j defaultEntry).data.length
            ≤ 6 + 16 * images.length + sumLen (images.take i) := by
  have hle := getD_data_len_le images i hi
  have htk := sumLen_take_le images i
  refine ⟨?_, ?_, ?_, ?_⟩
  · have h1 := assembleIco_size_field images i hi
    rwa [Nat.mod_eq_of_lt (by omega)] at h1
  · have h2 := assembleIco_offset_field images i hi
    simp only [icoOffset] at h2
    rwa [Nat.mod_eq_of_lt (by omega)] at h2
  · have h3 := assembleIco_payload_slice images i hi
    simpa only [icoOffset] using h3
  · intro j hj hne
    rcases Nat.lt_trichotomy i j with hlt | heq | hgt
    · left
      have ha := sumLen_take_succ images i hi
      have hb := sumLen_take_mono images (i + 1) j hlt
      omega
    · exact absurd heq.symm hne
    · right
      have ha := sumLen_take_succ images j hj
      have hb := sumLen_take_mono images (j + 1) i hgt
      omega

/-- C1 witness: the invariants at the two-entry input `demoPair`,
index 0, with the overlap clause instantiated at the other index 1. -/
theorem assembleIco_directory_invariants_witness :
    (0 < demoPair.length
        ∧ 6 + 16 * demoPair.length + sumLen demoPair < 4294967296
        ∧ 1 < demoPair.length ∧ (1 : Nat) ≠ 0) ∧
      getUint32 (assembleIco demoPair) (6 + 16 * 0 + 8) =
          (demoPair.getD 0 defaultEntry).data.length
        ∧ getUint32 (assembleIco demoPair) (6 + 16 * 0 + 12) =
          6 + 16 * demoPair.length + sumLen (demoPair.take 0)
        ∧ ((assembleIco demoPair).drop
              (6 + 16 * demoPair.length + sumLen (demoPair.take 0))).take
            (demoPair.getD 0 defaultEntry).data.length =
          (demoPair.getD 0 defaultEntry).data.map Fin.val
        ∧ (6 + 16 * demoPair.length + sumLen (demoPair.take 0)
              + (demoPair.getD 0 defaultEntry).data.length
            ≤ 6 + 16 * demoPair.length + sumLen (demoPair.take 1)
          ∨ 6 + 16 * demoPair.length + sumLen (demoPair.take 1)
              + (demoPair.getD 1 defaultEntry).data.length
            ≤ 6 + 16 * demoPair.length + sumLen (demoPair.take 0)) := by
  have h := assembleIco_directory_invariants demoPair 0 (by decide) (by decide)
  exact ⟨⟨by decide, by decide, by decide, by decide⟩,
    h.1, h.2.1, h.2.2.1, h.2.2.2 1 (by decide) (by decide)⟩

/-- C2: the output buffer has length exactly `6 + 16·N + Σ payload
lengths`, for every entry list. -/
theorem assembleIco_output_length (images : List ImageEntry) :
    (assembleIco images).length = 6 + 16 * images.length + sumLen images :=
  assembleIco_length_closed images

/-- C3 counterexample: on 65536 entries the little-endian 16-bit count
field of the header reads 0, not the input length, so the claim's
unconditional "count = entries.length" fails. -/
theorem assembleIco_count_field_overflow :
    getUint16 (assembleIco manyEntries) 4 ≠ manyEntries.length := by
  rw [assembleIco_count_field, manyEntries, List.length_replicate]
  decide

/-- C3 (amended): whenever the entry count fits the 16-bit field
(`N ≤ 65535`, which covers N ∈ {0, 1, 4, 65535}), the first 6 bytes
decode little-endian as reserved = 0, type = 1 and count =
`entries.length`; beyond that the count field holds
`entries.length mod 65536`. -/
theorem assembleIco_header_fields (images : List ImageEntry)
    (h : images.length ≤ 65535) :
    getUint16 (assembleIco images) 0 = 0
      ∧ getUint16 (assembleIco images) 2 = 1
      ∧ getUint16 (assembleIco images) 4 = images.length := by
  refine ⟨assembleIco_reserved_field images, assembleIco_type_field images, ?_⟩
  rw [assembleIco_count_field]
  omega

/-- C3 witness: the header fields at the four-entry input `demo4`. -/
theorem assembleIco_header_fields_witness :
    demo4.length ≤ 65535 ∧
      (getUint16 (assembleIco demo4) 0 = 0
        ∧ getUint16 (assembleIco demo4) 2 = 1
        ∧ getUint16 (assembleIco demo4) 4 = demo4.length) :=
  ⟨by decide, assembleIco_header_fields demo4 (by decide)⟩

/-- C4: the width and height bytes of directory record `i` hold the
entry's dimension when it is below 256 and the sentinel 0 when it is
256 or greater. -/
theorem assembleIco_dimension_bytes (images : List ImageEntry) (i : Nat)
    (hi : i < images.length) :
    getUint8 (assembleIco images) (6 + 16 * i) =
        (if (images.getD i defaultEntry).width ≥ 256 then 0
          else (images.getD i defaultEntry).width)
      ∧ getUint8 (assembleIco images) (6 + 16 * i + 1) =
        (if (images.getD i defaultEntry).height ≥ 256 then 0
          else (images.getD i defaultEntry).height) :=
  ⟨assembleIco_width_byte images i hi, assembleIco_height_byte images i hi⟩

/-- C4 witness: width 256 encodes 0, height 255 encodes 255, width 16
encodes 16, height 300 encodes 0, at the input `demoDims`. -/
theorem assembleIco_dimension_bytes_witness :
    (0 < demoDims.length ∧ 1 < demoDims.length) ∧
      getUint8 (assembleIco demoDims) (6 + 16 * 0) = 0
        ∧ getUint8 (assembleIco demoDims) (6 + 16 * 0 + 1) = 255
        ∧ getUint8 (assembleIco demoDims) (6 + 16 * 1) = 16
        ∧ getUint8 (assembleIco demoDims) (6 + 16 * 1 + 1) = 0 := by
  refine ⟨⟨by decide, by decide⟩, ?_, ?_, ?_, ?_⟩
  · exact ((assembleIco_dimension_bytes demoDims 0 (by decide)).1).trans (by decide)
  · exact ((assembleIco_dimension_bytes demoDims 0 (by decide)).2).trans (by decide)
  · exact ((assembleIco_dimension_bytes demoDims 1 (by decide)).1).trans (by decide)
  · exact ((assembleIco_dimension_bytes demoDims 1 (by decide)).2).trans (by decide)

/-- C5: directory record `i` of the output is exactly the 16-byte
encoding of `entries[i]` (input order preserved), and the trailing data
section is the concatenation of all payloads in input order with no
padding. -/
theorem assembleIco_order_preserved (images : List ImageEntry) (i : Nat)
    (hi : i < images.length) :
    ((assembleIco images).drop (6 + 16 * i)).take 16 =
        dirEntryBytes (images.getD i defaultEntry)
          (6 + 16 * images.length + sumLen (images.take i))
      ∧ (assembleIco images).drop (6 + 16 * images.length) = dataBytes images := by
  constructor
  · rw [assembleIco_eq, icoBytes_drop_dir images i hi]
    exact List.take_left' (dirEntryBytes_length _ _)
  · rw [assembleIco_eq]
    exact icoBytes_drop_data images

/-- C5 witness: record 1 of `demoPair` is the encoding of its second
entry, and the data section is the two payloads concatenated. -/
theorem assembleIco_order_preserved_witness :
    1 < demoPair.length ∧
      (((assembleIco demoPair).drop (6 + 16 * 1)).take 16 =
          dirEntryBytes (demoPair.getD 1 defaultEntry)
            (6 + 16 * demoPair.length + sumLen (demoPair.take 1))
        ∧ (assembleIco demoPair).drop (6 + 16 * demoPair.length) =
          dataBytes demoPair) :=
  ⟨by decide, assembleIco_order_preserved demoPair 1 (by decide)⟩

/-- C6: in every directory record the color-count and reserved bytes
are 0, the color-planes field is 1 and the bits-per-pixel field is 32,
independent of the entry. -/
theorem assembleIco_constant_fields (images : List ImageEntry) (i : Nat)
    (hi : i < images.length) :
    getUint8 (assembleIco images) (6 + 16 * i + 2) = 0
      ∧ getUint8 (assembleIco images) (6 + 16 * i + 3) = 0
      ∧ getUint16 (assembleIco images) (6 + 16 * i + 4) = 1
      ∧ getUint16 (assembleIco images) (6 + 16 * i + 6) = 32 :=
  ⟨assembleIco_colorcount_byte images i hi, assembleIco_reserved_byte images i hi,
    assembleIco_planes_field images i hi, assembleIco_bpp_field images i hi⟩

/-- C6 witness: the constant fields of record 0 of `demoPair`. -/
theorem assembleIco_constant_fields_witness :
    0 < demoPair.length ∧
      (getUint8 (assembleIco demoPair) (6 + 16 * 0 + 2) = 0
        ∧ getUint8 (assembleIco demoPair) (6 + 16 * 0 + 3) = 0
        ∧ getUint16 (assembleIco demoPair) (6 + 16 * 0 + 4) = 1
        ∧ getUint16 (assembleIco demoPair) (6 + 16 * 0 + 6) = 32) :=
  ⟨by decide, assembleIco_constant_fields demoPair 0 (by decide)⟩

/-- C7: on the empty entry list the routine completes and returns
exactly the 6-byte header `[0,0,1,0,0,0]` — count field 0, no
directory records, no image data. -/
theorem assembleIco_empty_input :
    assembleIco [] = [0, 0, 1, 0, 0, 0]
      ∧ (assembleIco ([] : List ImageEntry)).length = 6
      ∧ getUint16 (assembleIco []) 4 = 0 := by
  refine ⟨?_, ?_, ?_⟩ <;> decide

/-- C8: the routine is total (it is a Lean function, so it raises no
error on any input, square or not), its write cursor ends exactly at
the end of the allocated buffer, and the buffer keeps its allocated
size `totalSize` — no write ever lands past the end. -/
theorem assembleIco_writes_in_bounds (images : List ImageEntry) :
    (assembleIcoRun images).2 = (assembleIcoRun images).1.length
      ∧ (assembleIcoRun images).1.length = 6 + 16 * images.length + sumLen images := by
  rw [assembleIcoRun_eq]
  exact ⟨(icoBytes_length images).symm, icoBytes_length images⟩

/-- C9: `assembleIco` is deterministic — equal input lists give
bit-identical output buffers.  The embedding is a pure function of its
argument, mirroring that the routine reads and mutates no shared
state. -/
theorem assembleIco_deterministic (a b : List ImageEntry) (h : a = b) :
    assembleIco a = assembleIco b := by
  rw [h]

/-- C9 witness: determinism instantiated at `demoPair`. -/
theorem assembleIco_deterministic_witness :
    demoPair = demoPair ∧ assembleIco demoPair = assembleIco demoPair :=
  ⟨rfl, assembleIco_deterministic demoPair demoPair rfl⟩

/-- C10: when the input list is longer than 65535 entries the header
count field holds `entries.length mod 65536` (16-bit truncation) and so
differs from the true length, while the buffer size and every directory
record's data offset are computed from the true untruncated length. -/
theorem assembleIco_count_truncation (images : List ImageEntry) (i : Nat)
    (hbig : 65535 < images.length) (hi : i < images.length) :
    getUint16 (assembleIco images) 4 = images.length % 65536
      ∧ getUint16 (assembleIco images) 4 ≠ images.length
      ∧ (assembleIco images).length = 6 + 16 * images.length + sumLen images
      ∧ getUint32 (assembleIco images) (6 + 16 * i + 12) =
        (6 + 16 * images.length + sumLen (images.take i)) % 4294967296 := by
  refine ⟨assembleIco_count_field images, ?_, assembleIco_length_closed images, ?_⟩
  · rw [assembleIco_count_field]
    have : images.length % 65536 < 65536 := Nat.mod_lt _ (by omega)
    omega
  · have h := assembleIco_offset_field images i hi
    simpa only [icoOffset] using h

/-- C10 witness: the truncation at 65536 entries, record 0. -/
theorem assembleIco_count_truncation_witness :
    (65535 < manyEntries.length ∧ 0 < manyEntries.length) ∧
      (getUint16 (assembleIco manyEntries) 4 = manyEntries.length % 65536
        ∧ getUint16 (assembleIco manyEntries) 4 ≠ manyEntries.length
        ∧ (assembleIco manyEntries).length =
          6 + 16 * manyEntries.length + sumLen manyEntries
        ∧ getUint32 (assembleIco manyEntries) (6 + 16 * 0 + 12) =
          (6 + 16 * manyEntries.length + sumLen (manyEntries.take 0)) % 4294967296) :=
  ⟨⟨by rw [manyEntries, List.length_replicate]; decide,
      by rw [manyEntries, List.length_replicate]; decide⟩,
    assembleIco_count_truncation manyEntries 0
      (by rw [manyEntries, List.length_replicate]; decide)
      (by rw [manyEntries, List.length_replicate]; decide)⟩

end FaviconGenerator
